import Mathlib

/-!
Shallow embedding of the cryptobeca blockchain core
(src/transaction.rs, src/block.rs, src/blockchain.rs).

Rust `String` values are modelled as `List Char` (`Str`), bytes as
`Fin 256`, `f64` amounts as `Rat` (the claims under study depend only on
the fold structure of arithmetic, not on rounding), `u64` nonces as `Nat`
reduced modulo `2 ^ 64` on increment, and the `i64` difficulty as `Int`.
The SHA3-256 digest and the secp256k1 primitives are kept abstract in a
`Crypto` record (the digest is only constrained to produce 32 bytes, as
SHA3-256 does); hex encoding/decoding (the `hex` crate),
`Message::from_slice` (a 32-byte length check) and all control flow are
modelled concretely.  `Utc::now()` is an ambient input, so constructors
that read the clock take the RFC3339-rendered timestamp as an explicit
argument.  `println!` logging is invisible to callers and is modelled as
a no-op.  The unbounded mining loop is modelled with explicit fuel:
`none` stands for the loop not having returned yet.
-/

abbrev Str : Type := List Char

abbrev Byte : Type := Fin 256

/-- Hex digit character for a nibble, lowercase, as produced by
`hex::encode` and `format!("{:x}", ...)`. -/
def nibbleChar (n : Nat) : Char :=
  if n < 10 then Char.ofNat (48 + n) else Char.ofNat (87 + n)

/-- Value of a hex digit character; `hex::decode` accepts both cases. -/
def nibbleVal (c : Char) : Option Nat :=
  if 48 ≤ c.toNat ∧ c.toNat ≤ 57 then some (c.toNat - 48)
  else if 97 ≤ c.toNat ∧ c.toNat ≤ 102 then some (c.toNat - 87)
  else if 65 ≤ c.toNat ∧ c.toNat ≤ 70 then some (c.toNat - 55)
  else none

/-- `hex::encode`: each byte becomes two lowercase hex characters. -/
def hexEncode : List Byte → Str
  | [] => []
  | b :: bs => nibbleChar (b.val / 16) :: nibbleChar (b.val % 16) :: hexEncode bs

/-- `hex::decode`: fails on odd length or on a non-hex character. -/
def hexDecode : Str → Option (List Byte)
  | [] => some []
  | c1 :: c2 :: rest =>
    match nibbleVal c1, nibbleVal c2, hexDecode rest with
    | some h, some l, some bs =>
        some (⟨(h * 16 + l) % 256, Nat.mod_lt _ (by decide)⟩ :: bs)
    | _, _, _ => none
  | [_] => none

/-- `secp256k1::Message::from_slice`: succeeds exactly on 32 bytes. -/
def messageFromSlice (bs : List Byte) : Option (List Byte) :=
  if bs.length = 32 then some bs else none

/-- `str::starts_with`: `startsWith s p` holds when `p` is an initial
segment of `s`. -/
def startsWith : Str → Str → Bool
  | _, [] => true
  | [], _ :: _ => false
  | c :: s, d :: p => c == d && startsWith s p

/-- Abstract interface to the cryptographic primitives used by the code:
the SHA3-256 digest (constrained to 32 output bytes) and the secp256k1
key/signature operations, with keys and signatures as abstract tokens. -/
structure Crypto where
  sha3 : Str → List Byte
  sha3_len : ∀ s, (sha3 s).length = 32
  pubFromStr : Str → Option Nat
  secFromStr : Str → Option Nat
  derivePub : Nat → Nat
  signEcdsa : List Byte → Nat → Nat
  sigSerDer : Nat → List Byte
  sigFromDer : List Byte → Option Nat
  verifyEcdsa : List Byte → Nat → Nat → Bool

/-- `Transaction` struct of src/transaction.rs. -/
structure Transaction where
  from_address : Option Str
  to_address : Str
  amount : Rat
  signature : Option Str
  hash : Option Str
deriving DecidableEq

/-- `TransactionError` enum of src/transaction.rs. -/
inductive TransactionError where
  | invalidTransaction
deriving DecidableEq

/-- Rust `Debug` escaping inside a quoted string. -/
def debugEscape (s : Str) : Str :=
  s.foldr (fun c acc => if c = '"' ∨ c = '\\' then '\\' :: c :: acc else c :: acc) []

/-- Rust `{:?}` rendering of a `String`. -/
def debugString (s : Str) : Str :=
  '"' :: (debugEscape s ++ ['"'])

/-- Rust `{:?}` rendering of an `Option<String>`. -/
def debugOptionStr : Option Str → Str
  | none => "None".data
  | some s => "Some(".data ++ debugString s ++ ")".data

/-- Stand-in for the Rust `{:?}` rendering of the `f64` amount (the exact
text is irrelevant to the claims: it only feeds the abstract digest). -/
def debugAmount (q : Rat) : Str :=
  (toString q.num).data ++ "/".data ++ (toString q.den).data

/-- The `format!("{:?}:{:?}:{:?}", from_address, to_address, amount)`
input string of `Transaction::calculate_hash`. -/
def txHashInput (fromAddress : Option Str) (toAddress : Str) (amount : Rat) : Str :=
  debugOptionStr fromAddress ++ ':' :: (debugString toAddress ++ ':' :: debugAmount amount)

/-- `Transaction::calculate_hash` (the `&self` receiver is unused in the
source): SHA3-256 of the formatted fields, hex encoded. -/
def Transaction.calculateHash (C : Crypto) (fromAddress : Option Str)
    (toAddress : Str) (amount : Rat) : Str :=
  hexEncode (C.sha3 (txHashInput fromAddress toAddress amount))

/-- `Transaction::sign`: returns the `Result` and the post-call state of
the (in Rust, mutated in place) transaction. -/
def Transaction.sign (C : Crypto) (t : Transaction) (signingKey : Str) :
    Except Str Unit × Transaction :=
  match t.from_address with
  | none =>
    (.error "Transaction cannot be signed as it does not have a from address".data, t)
  | some fromAddress =>
    match C.pubFromStr fromAddress with
    | none => (.error "Invalid public key format".data, t)
    | some publicKey =>
      match C.secFromStr signingKey with
      | none => (.error "Invalid private key format".data, t)
      | some privateKey =>
        if C.derivePub privateKey ≠ publicKey then
          (.error "The private key does not correspond to the provided public key".data, t)
        else
          let hashTransaction :=
            Transaction.calculateHash C
              (some (t.from_address.getD "Mining reward".data)) t.to_address t.amount
          let t1 : Transaction := { t with hash := some hashTransaction }
          match hexDecode hashTransaction with
          | none => (.error "Invalid hex format".data, t1)
          | some decodedHash =>
            match messageFromSlice decodedHash with
            | none => (.error "Invalid message format".data, t1)
            | some message =>
              (.ok (),
               { t1 with
                 signature := some (hexEncode (C.sigSerDer (C.signEcdsa message privateKey))) })

/-- `Transaction::is_valid`.  The source re-extracts `from_address` with
`ok_or("Missing from_address")` after having early-returned on
`is_none()`, so that error arm is unreachable and the single outer match
here is faithful. -/
def Transaction.isValid (C : Crypto) (t : Transaction) : Except Str Bool :=
  match t.from_address with
  | none => .ok true
  | some fromAddress =>
    match t.signature with
    | none => .error "No signature in this transaction".data
    | some signature =>
      if signature = [] then .error "No signature in this transaction".data
      else
        match C.pubFromStr fromAddress with
        | none => .error "Invalid public key format".data
        | some publicKey =>
          match t.hash with
          | none => .error "Transaction hash not found".data
          | some storedHash =>
            match hexDecode storedHash with
            | none => .error "Error decoding transaction hash".data
            | some messageBytes =>
              match messageFromSlice messageBytes with
              | none => .error "Invalid message format".data
              | some message =>
                match hexDecode signature with
                | none => .error "Invalid signature format".data
                | some signatureBytes =>
                  match C.sigFromDer signatureBytes with
                  | none => .error "Invalid signature".data
                  | some sigValue => .ok (C.verifyEcdsa message sigValue publicKey)

/-- `Block` struct of src/block.rs.  `timestamp` holds the RFC3339
rendering that `calculate_hash` feeds into the digest. -/
structure Block where
  timestamp : Str
  transactions : List Transaction
  previous_hash : Str
  hash : Str
  nonce : Nat
deriving DecidableEq

/-- Rust `{:?}` rendering of a `Transaction` struct, as produced inside
`Block::calculate_hash`. -/
def debugTransaction (t : Transaction) : Str :=
  "Transaction \x7b from_address: ".data ++ debugOptionStr t.from_address ++
  ", to_address: ".data ++ debugString t.to_address ++
  ", amount: ".data ++ debugAmount t.amount ++
  ", signature: ".data ++ debugOptionStr t.signature ++
  ", hash: ".data ++ debugOptionStr t.hash ++ " \x7d".data

/-- `Block::calculate_hash`: concatenates the `{:?}` renderings of the
transactions, the RFC3339 timestamp, the previous hash and the nonce,
digests with SHA3-256 and renders the digest as lowercase hex. -/
def Block.calculateHash (C : Crypto) (timestamp : Str) (transactions : List Transaction)
    (previousHash : Str) (nonce : Nat) : Str :=
  hexEncode (C.sha3
    ((transactions.map debugTransaction).flatten ++ timestamp ++ previousHash ++
      (toString nonce).data))

/-- `Block::new`: current time is an ambient input, passed explicitly. -/
def Block.new (C : Crypto) (transactions : List Transaction) (previousHash : Str)
    (timestamp : Str) : Block :=
  { timestamp := timestamp
    transactions := transactions
    previous_hash := previousHash
    hash := Block.calculateHash C timestamp transactions previousHash 0
    nonce := 0 }

/-- The `while !self.hash.starts_with(&prefix_zeros)` loop of
`Block::mine_block`, with explicit fuel; `none` models the loop still
running.  The nonce increment wraps at `2 ^ 64` (`u64`). -/
def mineLoop (C : Crypto) (zeros : Str) : Block → Nat → Option Block
  | b, 0 => if startsWith b.hash zeros then some b else none
  | b, Nat.succ fuel =>
    if startsWith b.hash zeros then some b
    else
      mineLoop C zeros
        { b with
          nonce := (b.nonce + 1) % (2 ^ 64)
          hash := Block.calculateHash C b.timestamp b.transactions b.previous_hash
            ((b.nonce + 1) % (2 ^ 64)) }
        fuel

/-- `Block::mine_block`: builds the difficulty-many-zeros target, runs
the mining loop, and returns the mined block together with the
confirmation message. -/
def Block.mineBlock (C : Crypto) (b : Block) (difficulty : Int) (fuel : Nat) :
    Option (Block × Str) :=
  match mineLoop C (List.replicate difficulty.toNat '0') b fuel with
  | none => none
  | some b2 => some (b2, "Block successfully mined: ".data ++ b2.hash)

/-- The `for transaction in &self.transactions` loop of
`Block::has_valid_transactions`; a validation error is only printed
(modelled as a no-op) and the loop continues. -/
def hvtLoop (C : Crypto) : List Transaction → Except Str Bool
  | [] => .ok true
  | t :: ts =>
    match t.isValid C with
    | .ok true => hvtLoop C ts
    | .ok false => .ok false
    | .error _ => hvtLoop C ts

/-- `Block::has_valid_transactions`. -/
def Block.hasValidTransactions (C : Crypto) (b : Block) : Except Str Bool :=
  hvtLoop C b.transactions

/-- `Blockchain` struct of src/blockchain.rs. -/
structure Blockchain where
  chain : List Block
  difficulty : Int
  pending_transactions : List Transaction
  mining_reward : Rat
deriving DecidableEq

/-- `Blockchain::new`: genesis block with no transactions and previous
hash "0"; the genesis timestamp is the ambient clock input. -/
def Blockchain.new (C : Crypto) (difficulty : Int) (miningReward : Rat)
    (timestamp : Str) : Blockchain :=
  { chain := [Block.new C [] "0".data timestamp]
    difficulty := difficulty
    pending_transactions := []
    mining_reward := miningReward }

/-- `Blockchain::get_latest_block`. -/
def Blockchain.getLatestBlock (bc : Blockchain) : Option Block :=
  bc.chain.getLast?

/-- `Blockchain::mine_pending_transactions`: pushes the reward
transaction into the pending pool, builds a block from the full pool,
mines it, appends it and clears the pool.  The block-creation timestamp
is the ambient clock input; `none` models the mining loop not having
returned. -/
def Blockchain.minePendingTransactions (C : Crypto) (bc : Blockchain)
    (miningRewardAddress : Str) (timestamp : Str) (fuel : Nat) : Option Blockchain :=
  let rewardTransaction : Transaction :=
    { from_address := none
      to_address := miningRewardAddress
      amount := bc.mining_reward
      signature := none
      hash := none }
  let pending := bc.pending_transactions ++ [rewardTransaction]
  let prevBlockHash :=
    match bc.getLatestBlock with
    | some b => b.hash
    | none => "GenesisBlockHash".data
  match Block.mineBlock C (Block.new C pending prevBlockHash timestamp) bc.difficulty fuel with
  | none => none
  | some (minedBlock, _) =>
    some { bc with
           chain := bc.chain ++ [minedBlock]
           pending_transactions := [] }

/-- `Blockchain::add_transaction`: returns the `Result` and the
post-call chain state; a validation error is only printed (modelled as a
no-op) and the transaction is still pushed. -/
def Blockchain.addTransaction (C : Crypto) (bc : Blockchain) (transaction : Transaction) :
    Except TransactionError Unit × Blockchain :=
  if transaction.from_address = none ∨ transaction.to_address = [] then
    (.error .invalidTransaction, bc)
  else
    match transaction.isValid C with
    | .ok false => (.error .invalidTransaction, bc)
    | .ok true =>
      (.ok (), { bc with pending_transactions := bc.pending_transactions ++ [transaction] })
    | .error _ =>
      (.ok (), { bc with pending_transactions := bc.pending_transactions ++ [transaction] })

/-- `Blockchain::get_balance_of_address`: the nested fold of the
source, credited on matching recipient, else debited on matching
sender. -/
def Blockchain.getBalanceOfAddress (bc : Blockchain) (address : Str) : Rat :=
  bc.chain.foldl
    (fun acc block =>
      block.transactions.foldl
        (fun acc transaction =>
          if transaction.to_address = address then acc + transaction.amount
          else if transaction.from_address = some address then acc - transaction.amount
          else acc)
        acc)
    0

/-- The per-adjacent-pair predicate of `Blockchain::is_valid`: stored
hash matches the recomputation, stored hash matches the next block's
`previous_hash`, and `has_valid_transactions().unwrap_or(false)`. -/
def Blockchain.blockPairOk (C : Crypto) (p : Block × Block) : Bool :=
  decide (p.1.hash =
      Block.calculateHash C p.1.timestamp p.1.transactions p.1.previous_hash p.1.nonce) &&
  decide (p.1.hash = p.2.previous_hash) &&
  (match p.1.hasValidTransactions C with
   | .ok v => v
   | .error _ => false)

/-- `Blockchain::is_valid`: zips the chain with itself skipped by one
and checks every adjacent pair. -/
def Blockchain.isValid (C : Crypto) (bc : Blockchain) : Bool :=
  (bc.chain.zip bc.chain.tail).all (Blockchain.blockPairOk C)

/-- Modelled from the claim wording for C9 (the source function is
`Blockchain::get_balance_of_address` above): start from zero and, for
every transaction in every block in order, add the amount when the
recipient equals the address and subtract the amount when the sender
equals `Some(address)`, as two independent rules. -/
def balanceOfAddressSpec (bc : Blockchain) (address : Str) : Rat :=
  ((bc.chain.map Block.transactions).flatten).foldl
    (fun acc t =>
      let credited := if t.to_address = address then acc + t.amount else acc
      if t.from_address = some address then credited - t.amount else credited)
    0

/-- The contribution of one transaction to an address's balance under
the else-if semantics of the source fold: credit on matching recipient,
otherwise debit on matching sender, otherwise nothing. -/
def balanceContribution (address : Str) (t : Transaction) : Rat :=
  if t.to_address = address then t.amount
  else if t.from_address = some address then -t.amount
  else 0

/-- A concrete, fully computable instantiation of the abstract
cryptographic primitives, used to evaluate the embedding on concrete
inputs.  It satisfies the correctness property of a signature scheme
(a signature produced over a message with a secret key verifies against
that message and the derived public key, and verification depends on the
message and key), which is all the concrete evaluations below rely on. -/
def toyCrypto : Crypto where
  sha3 := fun s =>
    List.replicate 31 (0 : Byte) ++ [⟨s.length % 256, Nat.mod_lt _ (by decide)⟩]
  sha3_len := fun s => by simp
  pubFromStr := fun s => if s = [] then none else some s.length
  secFromStr := fun s => if s = [] then none else some s.length
  derivePub := fun k => k
  signEcdsa := fun message k => message.length + k
  sigSerDer := fun n => List.replicate n (0 : Byte)
  sigFromDer := fun bs => some bs.length
  verifyEcdsa := fun message sigValue publicKey => sigValue == message.length + publicKey

/-- A transaction whose validation raises an error under `toyCrypto`
(signature present and non-empty, but no stored hash). -/
def txErrC1 : Transaction :=
  { from_address := some "A".data
    to_address := "B".data
    amount := 1
    signature := some "s1".data
    hash := none }

/-- First block of the error-swallowing chain: its stored hash matches
the recomputation and it contains only `txErrC1`. -/
def blockC1a : Block :=
  { timestamp := "T1".data
    transactions := [txErrC1]
    previous_hash := "0".data
    hash := Block.calculateHash toyCrypto "T1".data [txErrC1] "0".data 0
    nonce := 0 }

/-- Second block of the error-swallowing chain, linked to the first. -/
def blockC1b : Block :=
  { timestamp := "T2".data
    transactions := []
    previous_hash := blockC1a.hash
    hash := "irrelevant".data
    nonce := 0 }

/-- Two-block chain whose first block holds only an error-raising
transaction. -/
def chainC1 : Blockchain :=
  { chain := [blockC1a, blockC1b]
    difficulty := 2
    pending_transactions := []
    mining_reward := 100 }

/-- A transaction that validates to `Ok(false)` under `toyCrypto`:
all decoding steps succeed but the signature does not verify. -/
def txFalseC1 : Transaction :=
  { from_address := some "A".data
    to_address := "B".data
    amount := 1
    signature := some (hexEncode (List.replicate 5 (0 : Byte)))
    hash := some (hexEncode (List.replicate 32 (0 : Byte))) }

/-- First block of the invalid-transaction chain. -/
def blockC1w : Block :=
  { timestamp := "T3".data
    transactions := [txFalseC1]
    previous_hash := "0".data
    hash := "h".data
    nonce := 0 }

/-- Second block of the invalid-transaction chain. -/
def blockC1w2 : Block :=
  { timestamp := "T4".data
    transactions := []
    previous_hash := "p".data
    hash := "q".data
    nonce := 0 }

/-- Two-block chain whose first block holds a transaction that
validates to `Ok(false)`. -/
def chainC1w : Blockchain :=
  { chain := [blockC1w, blockC1w2]
    difficulty := 2
    pending_transactions := []
    mining_reward := 100 }

/-- An unsigned transaction with a sender, about to be signed. -/
def txC2 : Transaction :=
  { from_address := some "A".data
    to_address := "B".data
    amount := 10
    signature := none
    hash := none }

/-- `txC2` after a successful `sign` under `toyCrypto`. -/
def txC2signed : Transaction := (Transaction.sign toyCrypto txC2 "k".data).2

/-- A fresh chain for the `add_transaction` evaluations. -/
def bcC3 : Blockchain := Blockchain.new toyCrypto 2 100 "G".data

/-- A sender-less transaction, rejected by `add_transaction`. -/
def txRejC3 : Transaction :=
  { from_address := none
    to_address := "B".data
    amount := 1
    signature := none
    hash := none }

/-- A transaction that validates to `Ok(true)` under `toyCrypto`. -/
def txAccC3 : Transaction :=
  { from_address := some "A".data
    to_address := "B".data
    amount := 2
    signature := some (hexEncode (List.replicate 33 (0 : Byte)))
    hash := some (hexEncode (List.replicate 32 (0 : Byte))) }

/-- A transaction whose signing fails (key mismatch under `toyCrypto`:
the two-character private key derives a public key different from the
one-character sender). -/
def txC4 : Transaction :=
  { from_address := some "A".data
    to_address := "B".data
    amount := 3
    signature := none
    hash := none }

/-- A sender-less reward transaction with arbitrary other fields. -/
def txC5 : Transaction :=
  { from_address := none
    to_address := "X".data
    amount := 100
    signature := some "garbage".data
    hash := some "also garbage".data }

/-- A freshly created block, input of the mining evaluation. -/
def blockC6 : Block := Block.new toyCrypto [] "0".data "T6".data

/-- The confirmation message `mine_block` returns for `blockC6`. -/
def msgC6 : Str := "Block successfully mined: ".data ++ blockC6.hash

/-- A freshly created block, input of the invariant evaluation. -/
def blockC7 : Block := Block.new toyCrypto [] "0".data "T7".data

/-- The confirmation message `mine_block` returns for `blockC7`. -/
def msgC7 : Str := "Block successfully mined: ".data ++ blockC7.hash

/-- A fresh chain for the `mine_pending_transactions` evaluation. -/
def bcC8 : Blockchain := Blockchain.new toyCrypto 2 100 "G8".data

/-- The chain obtained by mining the pending pool of `bcC8`. -/
def bcC8mined : Blockchain :=
  (Blockchain.minePendingTransactions toyCrypto bcC8 "addrX".data "T8".data 0).getD bcC8

/-- A self-send: sender and recipient are the same address. -/
def txSelfC9 : Transaction :=
  { from_address := some "a".data
    to_address := "a".data
    amount := 5
    signature := none
    hash := none }

/-- A block containing only the self-send transaction. -/
def blockC9 : Block :=
  { timestamp := "T9".data
    transactions := [txSelfC9]
    previous_hash := "0".data
    hash := "h".data
    nonce := 0 }

/-- A chain containing only the self-send block. -/
def bcC9 : Blockchain :=
  { chain := [blockC9]
    difficulty := 1
    pending_transactions := []
    mining_reward := 10 }

theorem nibbleVal_nibbleChar : ∀ n < 16, nibbleVal (nibbleChar n) = some n := by decide

theorem hexDecode_hexEncode : ∀ bs : List Byte, hexDecode (hexEncode bs) = some bs := by
  intro bs
  induction bs with
  | nil => rfl
  | cons b bs ih =>
    have hb := b.isLt
    have h1 : nibbleVal (nibbleChar (b.val / 16)) = some (b.val / 16) :=
      nibbleVal_nibbleChar _ (by omega)
    have h2 : nibbleVal (nibbleChar (b.val % 16)) = some (b.val % 16) :=
      nibbleVal_nibbleChar _ (by omega)
    simp only [hexEncode, hexDecode, h1, h2, ih]
    simp only [Option.some.injEq, List.cons.injEq, and_true]
    apply Fin.ext
    simp only
    omega

theorem startsWith_take : ∀ (p s : Str), startsWith s p = true → s.take p.length = p := by
  intro p
  induction p with
  | nil => intro s _; rfl
  | cons d p ih =>
    intro s h
    cases s with
    | nil => simp [startsWith] at h
    | cons c s =>
      simp only [startsWith, Bool.and_eq_true, beq_iff_eq] at h
      obtain ⟨h1, h2⟩ := h
      simp [List.take_succ_cons, ih s h2, h1]

theorem mineLoop_startsWith :
    ∀ (C : Crypto) (zeros : Str) (fuel : Nat) (b b2 : Block),
      mineLoop C zeros b fuel = some b2 → startsWith b2.hash zeros = true := by
  intro C zeros fuel
  induction fuel with
  | zero =>
    intro b b2 h
    cases hc : startsWith b.hash zeros with
    | false => simp [mineLoop, hc] at h
    | true =>
      simp only [mineLoop, hc, if_true, Option.some.injEq] at h
      rw [← h]; exact hc
  | succ fuel ih =>
    intro b b2 h
    cases hc : startsWith b.hash zeros with
    | false =>
      simp only [mineLoop, hc, Bool.false_eq_true, if_false] at h
      exact ih _ _ h
    | true =>
      simp only [mineLoop, hc, if_true, Option.some.injEq] at h
      rw [← h]; exact hc

theorem mineLoop_fields :
    ∀ (C : Crypto) (zeros : Str) (fuel : Nat) (b b2 : Block),
      mineLoop C zeros b fuel = some b2 →
      b2.timestamp = b.timestamp ∧ b2.transactions = b.transactions ∧
        b2.previous_hash = b.previous_hash := by
  intro C zeros fuel
  induction fuel with
  | zero =>
    intro b b2 h
    cases hc : startsWith b.hash zeros with
    | false => simp [mineLoop, hc] at h
    | true =>
      simp only [mineLoop, hc, if_true, Option.some.injEq] at h
      rw [← h]; exact ⟨rfl, rfl, rfl⟩
  | succ fuel ih =>
    intro b b2 h
    cases hc : startsWith b.hash zeros with
    | false =>
      simp only [mineLoop, hc, Bool.false_eq_true, if_false] at h
      have hf := ih _ _ h
      exact hf
    | true =>
      simp only [mineLoop, hc, if_true, Option.some.injEq] at h
      rw [← h]; exact ⟨rfl, rfl, rfl⟩

theorem mineLoop_inv :
    ∀ (C : Crypto) (zeros : Str) (fuel : Nat) (b b2 : Block),
      b.hash = Block.calculateHash C b.timestamp b.transactions b.previous_hash b.nonce →
      mineLoop C zeros b fuel = some b2 →
      b2.hash = Block.calculateHash C b2.timestamp b2.transactions b2.previous_hash b2.nonce := by
  intro C zeros fuel
  induction fuel with
  | zero =>
    intro b b2 hinv h
    cases hc : startsWith b.hash zeros with
    | false => simp [mineLoop, hc] at h
    | true =>
      simp only [mineLoop, hc, if_true, Option.some.injEq] at h
      rw [← h]; exact hinv
  | succ fuel ih =>
    intro b b2 hinv h
    cases hc : startsWith b.hash zeros with
    | false =>
      simp only [mineLoop, hc, Bool.false_eq_true, if_false] at h
      have hf := ih _ _ (by rfl) h
      exact hf
    | true =>
      simp only [mineLoop, hc, if_true, Option.some.injEq] at h
      rw [← h]; exact hinv

theorem mineBlock_fields :
    ∀ (C : Crypto) (b : Block) (d : Int) (fuel : Nat) (b2 : Block) (msg : Str),
      Block.mineBlock C b d fuel = some (b2, msg) →
      b2.timestamp = b.timestamp ∧ b2.transactions = b.transactions ∧
        b2.previous_hash = b.previous_hash := by
  intro C b d fuel b2 msg h
  unfold Block.mineBlock at h
  cases hm : mineLoop C (List.replicate d.toNat '0') b fuel with
  | none => rw [hm] at h; cases h
  | some b3 =>
    rw [hm] at h
    simp only [Option.some.injEq, Prod.mk.injEq] at h
    obtain ⟨h1, _⟩ := h
    rw [← h1]
    exact mineLoop_fields C _ fuel b b3 hm

theorem hvtLoop_eq :
    ∀ (C : Crypto) (ts : List Transaction),
      hvtLoop C ts =
        .ok (ts.all fun t =>
          match Transaction.isValid C t with
          | .ok false => false
          | _ => true) := by
  intro C ts
  induction ts with
  | nil => rfl
  | cons t ts ih =>
    cases h : Transaction.isValid C t with
    | ok b => cases b <;> simp [hvtLoop, h, ih, List.all_cons]
    | error e => simp [hvtLoop, h, ih, List.all_cons]

theorem chainAll_false (pred : Block × Block → Bool) :
    ∀ (l : List Block) (i : Nat) (h : i + 1 < l.length),
      pred (l.get ⟨i, by omega⟩, l.get ⟨i + 1, h⟩) = false →
      (l.zip l.tail).all pred = false := by
  intro l
  induction l with
  | nil => intro i h hp; exact absurd h (by simp)
  | cons b0 l ih =>
    cases l with
    | nil => intro i h hp; exact absurd h (by simp)
    | cons b1 rest =>
      intro i h hp
      cases i with
      | zero =>
        have hb : pred (b0, b1) = false := hp
        simp only [List.tail_cons, List.zip_cons_cons, List.all_cons]
        rw [hb, Bool.false_and]
      | succ j =>
        have h2 : j + 1 < (b1 :: rest).length := by
          simp only [List.length_cons] at h ⊢; omega
        have hp2 : pred ((b1 :: rest).get ⟨j, by omega⟩,
            (b1 :: rest).get ⟨j + 1, h2⟩) = false := hp
        have hall := ih j h2 hp2
        rw [List.tail_cons] at hall
        simp only [List.tail_cons, List.zip_cons_cons, List.all_cons]
        rw [hall, Bool.and_false]

theorem messageFromSlice_sha3 (C : Crypto) (s : Str) :
    messageFromSlice (C.sha3 s) = some (C.sha3 s) := by
  unfold messageFromSlice
  rw [C.sha3_len]
  simp

theorem balance_innerFold (address : Str) :
    ∀ (ts : List Transaction) (acc : Rat),
      ts.foldl (fun acc transaction =>
        if transaction.to_address = address then acc + transaction.amount
        else if transaction.from_address = some address then acc - transaction.amount
        else acc) acc
      = acc + (ts.map (balanceContribution address)).sum := by
  intro ts
  induction ts with
  | nil => intro acc; simp
  | cons t ts ih =>
    intro acc
    simp only [List.foldl_cons, List.map_cons, List.sum_cons, ih]
    by_cases h1 : t.to_address = address
    · simp [balanceContribution, h1]; ring
    · by_cases h2 : t.from_address = some address
      · simp [balanceContribution, h1, h2]; ring
      · simp [balanceContribution, h1, h2]

theorem balance_outerFold (address : Str) :
    ∀ (blocks : List Block) (acc : Rat),
      blocks.foldl (fun acc block =>
        block.transactions.foldl (fun acc transaction =>
          if transaction.to_address = address then acc + transaction.amount
          else if transaction.from_address = some address then acc - transaction.amount
          else acc) acc) acc
      = acc + ((blocks.map Block.transactions).flatten.map (balanceContribution address)).sum := by
  intro blocks
  induction blocks with
  | nil => intro acc; simp
  | cons b bs ih =>
    intro acc
    rw [List.foldl_cons, ih, balance_innerFold]
    simp only [List.map_cons, List.flatten_cons, List.map_append, List.sum_append]
    ring

set_option maxRecDepth 100000 in
/-- Claim C1, counterexample: a validation error raised while checking a
block's transactions does NOT make the chain invalid.  In `chainC1` the
only transaction of the earlier block raises `"Transaction hash not
found"` during validation, yet `Blockchain.isValid` returns `true`: the
error is swallowed inside `has_valid_transactions`, which consequently
never returns `Err`, so the `unwrap_or(false)` collapse in
`Chain::is_valid` never fires. -/
theorem chain_tx_error_swallowed_cex :
    Transaction.isValid toyCrypto txErrC1 = .error "Transaction hash not found".data ∧
    Blockchain.isValid toyCrypto chainC1 = true := ⟨rfl, rfl⟩

/-- Claim C1, amended: `Chain::is_valid` maps a `has_valid_transactions`
`Err` to `false` via `unwrap_or(false)`, but `has_valid_transactions`
never returns `Err` (transaction-level validation errors are only
printed and the transaction treated as valid), so an error cannot make
the chain invalid; what does make it invalid is an earlier block of some
adjacent pair whose `has_valid_transactions` returns `Ok(false)`. -/
theorem chain_isValid_false_of_block_invalid :
    ∀ (C : Crypto) (bc : Blockchain) (i : Nat) (h : i + 1 < bc.chain.length),
      Block.hasValidTransactions C (bc.chain.get ⟨i, Nat.lt_of_succ_lt h⟩) = .ok false →
      Blockchain.isValid C bc = false := by
  intro C bc i h hv
  apply chainAll_false (Blockchain.blockPairOk C) bc.chain i h
  simp only [List.get_eq_getElem] at hv
  simp [Blockchain.blockPairOk, hv]

/-- Witness for the amended C1 at a concrete chain whose first block
contains a transaction validating to `Ok(false)`. -/
theorem chain_isValid_false_of_block_invalid_witness :
    Blockchain.isValid toyCrypto chainC1w = false :=
  chain_isValid_false_of_block_invalid toyCrypto chainC1w 0 (by decide) (by rfl)

/-- Claim C2, code evaluation at the failing input: signing `txC2`
succeeds, and after mutating `amount` to 999 without re-signing,
`is_valid()` still returns `Ok(true)` — the verification uses the stored
hash and never recomputes the digest from the current fields, so the
tamper-detection property the spec requires does not hold. -/
theorem tampered_amount_still_valid :
    (Transaction.sign toyCrypto txC2 "k".data).1 = .ok () ∧
    Transaction.isValid toyCrypto { txC2signed with amount := 999 } = .ok true := ⟨rfl, rfl⟩

/-- Claim C3: `add_transaction` rejects without mutating the pending
pool when the sender is absent, the recipient is empty, or validation
returns `Ok(false)`; a validation `Err` is only logged and the
transaction is still appended; every accepted transaction is appended at
the end of the pool and `Ok` is returned. -/
theorem addTransaction_spec :
    ∀ (C : Crypto) (bc : Blockchain) (t : Transaction),
      ((t.from_address = none ∨ t.to_address = []) →
        Blockchain.addTransaction C bc t = (.error .invalidTransaction, bc)) ∧
      (t.from_address ≠ none → t.to_address ≠ [] →
        Transaction.isValid C t = .ok false →
        Blockchain.addTransaction C bc t = (.error .invalidTransaction, bc)) ∧
      (t.from_address ≠ none → t.to_address ≠ [] →
        ∀ e : Str, Transaction.isValid C t = .error e →
        Blockchain.addTransaction C bc t =
          (.ok (), { bc with pending_transactions := bc.pending_transactions ++ [t] })) ∧
      (t.from_address ≠ none → t.to_address ≠ [] →
        Transaction.isValid C t = .ok true →
        Blockchain.addTransaction C bc t =
          (.ok (), { bc with pending_transactions := bc.pending_transactions ++ [t] })) := by
  intro C bc t
  refine ⟨?_, ?_, ?_, ?_⟩
  · intro h
    rcases h with h | h <;> simp [Blockchain.addTransaction, h]
  · intro h1 h2 hv
    simp [Blockchain.addTransaction, h1, h2, hv]
  · intro h1 h2 e hv
    simp [Blockchain.addTransaction, h1, h2, hv]
  · intro h1 h2 hv
    simp [Blockchain.addTransaction, h1, h2, hv]

/-- Witness for C3: a sender-less transaction is rejected leaving the
chain unchanged, and a valid transaction is appended with `Ok`. -/
theorem addTransaction_spec_witness :
    Blockchain.addTransaction toyCrypto bcC3 txRejC3 = (.error .invalidTransaction, bcC3) ∧
    Blockchain.addTransaction toyCrypto bcC3 txAccC3 =
      (.ok (), { bcC3 with pending_transactions := bcC3.pending_transactions ++ [txAccC3] }) :=
  ⟨(addTransaction_spec toyCrypto bcC3 txRejC3).1 (Or.inl rfl),
   (addTransaction_spec toyCrypto bcC3 txAccC3).2.2.2 (by decide) (by decide) (by rfl)⟩

/-- Claim C4: whenever `sign` returns an error, the transaction's `hash`
and `signature` fields are exactly as they were before the call.  The
proof uses that the hex decode of the just-computed hex-encoded digest
cannot fail and that the digest always has 32 bytes, so no failure can
occur after the `hash` field has been written. -/
theorem sign_error_no_mutation :
    ∀ (C : Crypto) (t : Transaction) (signingKey e : Str) (t2 : Transaction),
      Transaction.sign C t signingKey = (.error e, t2) →
      t2.hash = t.hash ∧ t2.signature = t.signature := by
  intro C t signingKey e t2 h
  unfold Transaction.sign at h
  cases hf : t.from_address with
  | none =>
    simp only [hf, Prod.mk.injEq] at h
    rw [← h.2]
    exact ⟨rfl, rfl⟩
  | some fromAddress =>
    simp only [hf] at h
    cases hp : C.pubFromStr fromAddress with
    | none =>
      simp only [hp, Prod.mk.injEq] at h
      rw [← h.2]; exact ⟨rfl, rfl⟩
    | some publicKey =>
      simp only [hp] at h
      cases hs : C.secFromStr signingKey with
      | none =>
        simp only [hs, Prod.mk.injEq] at h
        rw [← h.2]; exact ⟨rfl, rfl⟩
      | some privateKey =>
        simp only [hs] at h
        by_cases hd : C.derivePub privateKey = publicKey
        · rw [if_neg (by simp [hd])] at h
          simp only [Transaction.calculateHash, hexDecode_hexEncode,
            messageFromSlice_sha3, Prod.mk.injEq] at h
          exact absurd h.1 (by simp)
        · rw [if_pos hd] at h
          simp only [Prod.mk.injEq] at h
          rw [← h.2]; exact ⟨rfl, rfl⟩

/-- Witness for C4 at a concrete key-mismatch failure. -/
theorem sign_error_no_mutation_witness :
    txC4.hash = txC4.hash ∧ txC4.signature = txC4.signature :=
  sign_error_no_mutation toyCrypto txC4 "kk".data
    "The private key does not correspond to the provided public key".data txC4 (by rfl)

/-- Claim C5: a transaction whose sender is `None` validates to
`Ok(true)` whatever its other fields hold. -/
theorem reward_transaction_always_valid :
    ∀ (C : Crypto) (t : Transaction),
      t.from_address = none → Transaction.isValid C t = .ok true := by
  intro C t h
  unfold Transaction.isValid
  rw [h]

/-- Witness for C5 at a sender-less transaction carrying garbage
signature and hash fields. -/
theorem reward_transaction_always_valid_witness :
    Transaction.isValid toyCrypto txC5 = .ok true :=
  reward_transaction_always_valid toyCrypto txC5 rfl

/-- Claim C6: whenever `mine_block(d)` returns, for a difficulty `d` in
0..3, the first `d` characters of the block's hash are all `'0'` (the
loop only exits once the hash starts with the `d`-zeros target). -/
theorem mined_hash_has_difficulty_zeros :
    ∀ (C : Crypto) (b : Block) (d : Int) (fuel : Nat) (b2 : Block) (msg : Str),
      (d = 0 ∨ d = 1 ∨ d = 2 ∨ d = 3) →
      Block.mineBlock C b d fuel = some (b2, msg) →
      b2.hash.take d.toNat = List.replicate d.toNat '0' := by
  intro C b d fuel b2 msg _ h
  unfold Block.mineBlock at h
  cases hm : mineLoop C (List.replicate d.toNat '0') b fuel with
  | none => rw [hm] at h; cases h
  | some b3 =>
    rw [hm] at h
    simp only [Option.some.injEq, Prod.mk.injEq] at h
    obtain ⟨h1, _⟩ := h
    rw [← h1]
    have hs := mineLoop_startsWith C _ fuel b b3 hm
    have ht := startsWith_take _ _ hs
    rw [List.length_replicate] at ht
    exact ht

/-- Witness for C6 at a concrete block mined at difficulty 3 under
`toyCrypto` (its fresh hash already meets the target, so fuel 0
suffices). -/
theorem mined_hash_has_difficulty_zeros_witness :
    blockC6.hash.take 3 = List.replicate 3 '0' :=
  mined_hash_has_difficulty_zeros toyCrypto blockC6 3 0 blockC6 msgC6
    (Or.inr (Or.inr (Or.inr rfl))) (by rfl)

/-- Claim C7: the stored `hash` equals the digest recomputed from the
block's own current fields right after `Block::new`, and, provided it
held when mining started, again by the time `mine_block` returns, for
every difficulty. -/
theorem block_hash_invariant :
    (∀ (C : Crypto) (txs : List Transaction) (prev ts : Str),
      (Block.new C txs prev ts).hash = Block.calculateHash C ts txs prev 0) ∧
    (∀ (C : Crypto) (b : Block) (d : Int) (fuel : Nat) (b2 : Block) (msg : Str),
      b.hash = Block.calculateHash C b.timestamp b.transactions b.previous_hash b.nonce →
      Block.mineBlock C b d fuel = some (b2, msg) →
      b2.hash = Block.calculateHash C b2.timestamp b2.transactions b2.previous_hash b2.nonce) := by
  constructor
  · intro C txs prev ts; rfl
  · intro C b d fuel b2 msg hinv h
    unfold Block.mineBlock at h
    cases hm : mineLoop C (List.replicate d.toNat '0') b fuel with
    | none => rw [hm] at h; cases h
    | some b3 =>
      rw [hm] at h
      simp only [Option.some.injEq, Prod.mk.injEq] at h
      obtain ⟨h1, _⟩ := h
      rw [← h1]
      exact mineLoop_inv C _ fuel b b3 hinv hm

/-- Witness for C7: the invariant evaluated on a freshly created block
before and after mining under `toyCrypto`. -/
theorem block_hash_invariant_witness :
    blockC7.hash = Block.calculateHash toyCrypto blockC7.timestamp blockC7.transactions
      blockC7.previous_hash blockC7.nonce :=
  block_hash_invariant.2 toyCrypto blockC7 2 0 blockC7 msgC7 (by rfl) (by rfl)

/-- Claim C8: whenever `mine_pending_transactions` returns, exactly one
block has been appended; it holds the previously pending transactions
followed by one sender-less reward transaction of `mining_reward` to the
given address (present even when the pool was empty); its
`previous_hash` is the prior last block's hash when the chain was
non-empty; and the pending pool is empty afterwards. -/
theorem mine_pending_appends_one_block :
    ∀ (C : Crypto) (bc : Blockchain) (addr ts : Str) (fuel : Nat) (bc2 : Blockchain),
      Blockchain.minePendingTransactions C bc addr ts fuel = some bc2 →
      ∃ b : Block,
        bc2.chain = bc.chain ++ [b] ∧
        b.transactions = bc.pending_transactions ++
          [{ from_address := none, to_address := addr, amount := bc.mining_reward,
             signature := none, hash := none }] ∧
        (∀ last : Block, bc.chain.getLast? = some last → b.previous_hash = last.hash) ∧
        bc2.pending_transactions = [] := by
  intro C bc addr ts fuel bc2 h
  unfold Blockchain.minePendingTransactions at h
  split at h
  next lastB hlatest =>
    simp only [] at h
    cases hM : Block.mineBlock C (Block.new C (bc.pending_transactions ++
        [{ from_address := none, to_address := addr, amount := bc.mining_reward,
           signature := none, hash := none }]) lastB.hash ts) bc.difficulty fuel with
    | none =>
      rw [hM] at h
      exact Option.noConfusion h
    | some p =>
      obtain ⟨minedBlock, msg⟩ := p
      rw [hM] at h
      simp only [Option.some.injEq] at h
      have hf := mineBlock_fields C _ bc.difficulty fuel minedBlock msg hM
      refine ⟨minedBlock, ?_, ?_, ?_, ?_⟩
      · rw [← h]
      · exact hf.2.1
      · intro last hlast
        have hl2 : bc.chain.getLast? = some lastB := hlatest
        rw [hl2] at hlast
        have hl3 := Option.some.inj hlast
        rw [hf.2.2, ← hl3]
        rfl
      · rw [← h]
  next hlatest =>
    simp only [] at h
    cases hM : Block.mineBlock C (Block.new C (bc.pending_transactions ++
        [{ from_address := none, to_address := addr, amount := bc.mining_reward,
           signature := none, hash := none }])
        ['G', 'e', 'n', 'e', 's', 'i', 's', 'B', 'l', 'o', 'c', 'k', 'H', 'a', 's', 'h']
        ts) bc.difficulty fuel with
    | none =>
      rw [hM] at h
      exact Option.noConfusion h
    | some p =>
      obtain ⟨minedBlock, msg⟩ := p
      rw [hM] at h
      simp only [Option.some.injEq] at h
      have hf := mineBlock_fields C _ bc.difficulty fuel minedBlock msg hM
      refine ⟨minedBlock, ?_, ?_, ?_, ?_⟩
      · rw [← h]
      · exact hf.2.1
      · intro last hlast
        have hl2 : bc.chain.getLast? = none := hlatest
        rw [hl2] at hlast
        exact Option.noConfusion hlast
      · rw [← h]

/-- Witness for C8 at a fresh chain with an empty pending pool, mined
under `toyCrypto`. -/
theorem mine_pending_appends_one_block_witness :
    ∃ b : Block,
      bcC8mined.chain = bcC8.chain ++ [b] ∧
      b.transactions = bcC8.pending_transactions ++
        [{ from_address := none, to_address := "addrX".data, amount := bcC8.mining_reward,
           signature := none, hash := none }] ∧
      (∀ last : Block, bcC8.chain.getLast? = some last → b.previous_hash = last.hash) ∧
      bcC8mined.pending_transactions = [] :=
  mine_pending_appends_one_block toyCrypto bcC8 "addrX".data "T8".data 0 bcC8mined (by rfl)

/-- Claim C9, counterexample: on a self-send (sender and recipient both
equal the queried address) the code's else-if only credits, while the
claim's two independent add/subtract rules would cancel out: the claimed
value differs from what `get_balance_of_address` returns. -/
theorem balance_selfsend_cex :
    Blockchain.getBalanceOfAddress bcC9 "a".data = 5 ∧
    balanceOfAddressSpec bcC9 "a".data = 0 ∧
    Blockchain.getBalanceOfAddress bcC9 "a".data ≠ balanceOfAddressSpec bcC9 "a".data := by
  refine ⟨?_, ?_, ?_⟩
  · simp [Blockchain.getBalanceOfAddress, bcC9, blockC9, txSelfC9]
  · simp [balanceOfAddressSpec, bcC9, blockC9, txSelfC9]
  · simp [Blockchain.getBalanceOfAddress, balanceOfAddressSpec, bcC9, blockC9, txSelfC9]

/-- Claim C9, amended: `get_balance_of_address` returns the sum, over
every transaction of every block in order, of an else-if contribution:
plus the amount when the recipient equals the address, otherwise minus
the amount when the sender equals `Some(address)` (so a self-send only
credits), otherwise zero, starting from zero. -/
theorem balance_is_sum_of_contributions :
    ∀ (bc : Blockchain) (address : Str),
      Blockchain.getBalanceOfAddress bc address =
        ((bc.chain.map Block.transactions).flatten.map (balanceContribution address)).sum := by
  intro bc address
  unfold Blockchain.getBalanceOfAddress
  rw [balance_outerFold]
  simp

/-- Claim C10: `has_valid_transactions` never returns `Err`: it returns
`Ok` of the conjunction, over the contained transactions, of "is_valid
did not return Ok(false)" — so it is `Ok(false)` exactly when some
transaction validates to `Ok(false)`, and `Ok(true)` otherwise,
including when every transaction's validation errors. -/
theorem has_valid_transactions_total :
    ∀ (C : Crypto) (b : Block),
      Block.hasValidTransactions C b =
        .ok (b.transactions.all fun t =>
          match Transaction.isValid C t with
          | .ok false => false
          | _ => true) := by
  intro C b
  exact hvtLoop_eq C b.transactions
